import Mathlib

/-!
Verification development for the syncodecs library of synthetic codecs
(header `src/syncodecs.h`).  The repository ships only the header: the
class declarations and their extensive behavioural documentation.  The
method bodies live in a `.cpp` file that is not part of `src/`, so every
operation below is modelled from the specification (and the header's own
documentation, which agrees with it), as indicated on each definition.

Conventions of the shallow embedding:
* real-valued quantities (rates in bits per second, seconds, frame sizes
  produced by the statistical codec) are rationals;
* trace bitrates are naturals in kbps, as in the trace-file names; they
  are converted to bps (`* 1000`) when compared with a target rate;
* a frame/packet record is its payload length in bytes together with the
  seconds to wait before the next record.
-/

namespace Syncodecs

/-- Number of initial frames excluded when a trace wraps around
(`N_FRAMES_EXCLUDED` in the header). -/
def nFramesExcluded : Nat := 20

/-- Modelled from the spec: the fixed table mapping resolution labels to
pixel dimensions (height, width).  The header documents the label list
"90p" … "1080p" and the corresponding pixel resolutions 160x90 … 1920x1080;
the static initializer `TraceBasedCodec::m_labels2Res` itself is in the
missing implementation file. -/
def labels2Res : List (String × Nat × Nat) :=
  [("90p", 90, 160), ("180p", 180, 320), ("240p", 240, 352),
   ("360p", 360, 640), ("480p", 480, 640), ("540p", 540, 960),
   ("720p", 720, 1280), ("1080p", 1080, 1920)]

/-- Modelled from the spec: `TraceBasedCodec::getPixelsPerFrame` (body in
the missing implementation file) returns the number of pixels contained in
a frame of the given resolution, as a real for convenience. -/
def getPixelsPerFrame (res : String) : ℚ :=
  match labels2Res.find? (fun p => p.1 = res) with
  | some p => ((p.2.1 * p.2.2 : Nat) : ℚ)
  | none => 0

/-- Pixel count of the 480p resolution, above which Waggoner's rule
applies (`m_limitPixelsPerFrame`). -/
def pixels480 : ℚ := getPixelsPerFrame "480p"

/-- Largest element of a list of naturals, `none` on the empty list. -/
def listMax : List Nat → Option Nat
  | [] => none
  | a :: rest =>
    some (match listMax rest with
          | none => a
          | some m => max a m)

/-- Smallest element of a list of naturals, `none` on the empty list. -/
def listMin : List Nat → Option Nat
  | [] => none
  | a :: rest =>
    some (match listMin rest with
          | none => a
          | some m => min a m)

theorem listMax_isSome {l : List Nat} (h : l ≠ []) : ∃ m, listMax l = some m := by
  cases l with
  | nil => exact absurd rfl h
  | cons a rest => exact ⟨_, rfl⟩

theorem listMax_mem {l : List Nat} {m : Nat} (h : listMax l = some m) : m ∈ l := by
  induction l generalizing m with
  | nil => simp [listMax] at h
  | cons a rest ih =>
    simp only [listMax] at h
    cases hrest : listMax rest with
    | none =>
      rw [hrest] at h
      simp at h
      simp [h]
    | some m' =>
      rw [hrest] at h
      simp at h
      rcases max_choice a m' with hc | hc <;> rw [hc] at h
      · simp [h]
      · exact List.mem_cons_of_mem _ (h ▸ ih hrest)

theorem listMax_ge {l : List Nat} {m : Nat} (h : listMax l = some m) :
    ∀ b ∈ l, b ≤ m := by
  induction l generalizing m with
  | nil => simp
  | cons a rest ih =>
    intro b hb
    simp only [listMax] at h
    cases hrest : listMax rest with
    | none =>
      cases rest with
      | nil =>
        rw [hrest] at h
        simp at h hb
        omega
      | cons c r => simp [listMax] at hrest
    | some m' =>
      rw [hrest] at h
      simp at h
      rcases List.mem_cons.mp hb with hb | hb
      · subst hb
        omega
      · have := ih hrest b hb
        omega

theorem listMin_isSome {l : List Nat} (h : l ≠ []) : ∃ m, listMin l = some m := by
  cases l with
  | nil => exact absurd rfl h
  | cons a rest => exact ⟨_, rfl⟩

theorem listMin_mem {l : List Nat} {m : Nat} (h : listMin l = some m) : m ∈ l := by
  induction l generalizing m with
  | nil => simp [listMin] at h
  | cons a rest ih =>
    simp only [listMin] at h
    cases hrest : listMin rest with
    | none =>
      rw [hrest] at h
      simp at h
      simp [h]
    | some m' =>
      rw [hrest] at h
      simp at h
      rcases min_choice a m' with hc | hc <;> rw [hc] at h
      · simp [h]
      · exact List.mem_cons_of_mem _ (h ▸ ih hrest)

theorem listMin_le {l : List Nat} {m : Nat} (h : listMin l = some m) :
    ∀ b ∈ l, m ≤ b := by
  induction l generalizing m with
  | nil => simp
  | cons a rest ih =>
    intro b hb
    simp only [listMin] at h
    cases hrest : listMin rest with
    | none =>
      cases rest with
      | nil =>
        rw [hrest] at h
        simp at h hb
        omega
      | cons c r => simp [listMin] at hrest
    | some m' =>
      rw [hrest] at h
      simp at h
      rcases List.mem_cons.mp hb with hb | hb
      · subst hb
        omega
      · have := ih hrest b hb
        omega

/-- Trace bitrates are recorded in kbps (as in the trace-file names);
this converts such a bitrate to bits per second for comparison with a
target rate. -/
def bitrateBps (b : Nat) : ℚ := (b : ℚ) * 1000

/-- Modelled from the spec: `TraceBasedCodec::matchBitrate` (body in the
missing implementation file).  Given the loaded bitrates (kbps) of the
current resolution and the target rate (bps), select the largest bitrate
not exceeding the target; if none qualifies, select the smallest loaded
bitrate (best effort).  Returns `none` when no bitrate is loaded. -/
def matchBitrate (bitrates : List Nat) (targetRateBps : ℚ) : Option Nat :=
  let qualifying := bitrates.filter (fun b => bitrateBps b ≤ targetRateBps)
  match listMax qualifying with
  | some m => some m
  | none => listMin bitrates

/-- C1: whenever the bitrate matching of `TraceBasedCodec` re-runs
for the current resolution and target rate, if at least one loaded
bitrate is at most the target rate then the matched bitrate is the
largest such (hence itself at most the target rate); if no loaded
bitrate is at most the target rate, the matched bitrate is the smallest
loaded one. -/
theorem traceBasedCodec_matchBitrate_spec (bitrates : List Nat) (t : ℚ)
    (hne : bitrates ≠ []) :
    ((∃ b ∈ bitrates, bitrateBps b ≤ t) →
      ∃ m, matchBitrate bitrates t = some m ∧ m ∈ bitrates ∧
        bitrateBps m ≤ t ∧ ∀ b ∈ bitrates, bitrateBps b ≤ t → b ≤ m) ∧
    ((∀ b ∈ bitrates, ¬ bitrateBps b ≤ t) →
      ∃ m, matchBitrate bitrates t = some m ∧ m ∈ bitrates ∧
        ∀ b ∈ bitrates, m ≤ b) := by
  constructor
  · rintro ⟨b, hb, hble⟩
    have hbq : b ∈ bitrates.filter (fun b => decide (bitrateBps b ≤ t)) := by
      simp [List.mem_filter, hb, hble]
    have hq : bitrates.filter (fun b => decide (bitrateBps b ≤ t)) ≠ [] :=
      List.ne_nil_of_mem hbq
    obtain ⟨m, hm⟩ := listMax_isSome hq
    refine ⟨m, ?_, ?_, ?_, ?_⟩
    · simp only [matchBitrate]
      rw [hm]
    · have := listMax_mem hm
      exact (List.mem_filter.mp this).1
    · have := listMax_mem hm
      have := (List.mem_filter.mp this).2
      simpa using this
    · intro c hc hcle
      apply listMax_ge hm
      simp [List.mem_filter, hc, hcle]
  · intro hnone
    have hq : bitrates.filter (fun b => decide (bitrateBps b ≤ t)) = [] := by
      rw [List.filter_eq_nil_iff]
      intro b hb
      simpa using hnone b hb
    obtain ⟨m, hm⟩ := listMin_isSome hne
    refine ⟨m, ?_, listMin_mem hm, listMin_le hm⟩
    simp only [matchBitrate]
    rw [hq]
    simpa [listMax] using hm

/-- Witness for C1 at a concrete input: bitrates 100, 300, 500 kbps with
target 400000 bps (the qualifying case) and target 50000 bps (the
below-minimum case). -/
theorem traceBasedCodec_matchBitrate_spec_witness :
    ([100, 300, 500] : List Nat) ≠ [] ∧
    (((∃ b ∈ [100, 300, 500], bitrateBps b ≤ (400000 : ℚ)) →
      ∃ m, matchBitrate [100, 300, 500] 400000 = some m ∧ m ∈ [100, 300, 500] ∧
        bitrateBps m ≤ 400000 ∧ ∀ b ∈ [100, 300, 500], bitrateBps b ≤ 400000 → b ≤ m) ∧
    ((∀ b ∈ [100, 300, 500], ¬ bitrateBps b ≤ (400000 : ℚ)) →
      ∃ m, matchBitrate [100, 300, 500] 400000 = some m ∧ m ∈ [100, 300, 500] ∧
        ∀ b ∈ [100, 300, 500], m ≤ b)) ∧
    matchBitrate [100, 300, 500] 400000 = some 300 ∧
    matchBitrate [100, 300, 500] 50000 = some 100 :=
  ⟨by decide,
   traceBasedCodec_matchBitrate_spec [100, 300, 500] 400000 (by decide),
   by with_unfolding_all decide, by with_unfolding_all decide⟩

/-- C10: the fixed resolution table maps the labels 90p, 180p, 240p,
360p, 480p, 540p, 720p, 1080p respectively to the pixel dimensions
160x90, 320x180, 352x240, 640x360, 640x480, 960x540, 1280x720,
1920x1080, and the pixel counts returned by `getPixelsPerFrame` are
strictly increasing in that label order. -/
theorem labels2Res_pixels_strictly_increasing :
    labels2Res.map (fun p => p.1) =
      ["90p", "180p", "240p", "360p", "480p", "540p", "720p", "1080p"] ∧
    labels2Res.map (fun p => (p.2.2, p.2.1)) =
      [(160, 90), (320, 180), (352, 240), (640, 360),
       (640, 480), (960, 540), (1280, 720), (1920, 1080)] ∧
    labels2Res.map (fun p => getPixelsPerFrame p.1) =
      [14400, 57600, 84480, 230400, 307200, 518400, 921600, 2073600] ∧
    List.Chain' (· < ·) (labels2Res.map (fun p => getPixelsPerFrame p.1)) := by
  refine ⟨by decide, by decide, ?_, ?_⟩ <;>
    simp [labels2Res, getPixelsPerFrame] <;> norm_num

/-- Frame record: payload length in bytes and seconds to wait before the
next frame (the meaningful parts of a `PacketOrFrameRecord` and of a
trace `LineRecord`). -/
structure FrameRec where
  size : Nat
  secsToNext : ℚ
deriving DecidableEq

/-- State of a `TraceBasedCodec`: the loaded trace set (an association
list resolution label → association list bitrate (kbps) → frame
sequence, ordered as loaded), the fps, target rate, resolution mode and
iterators (modelled as indices into the list of loaded resolutions), the
shared frame cursor, the currently matched bitrate and the current
output record. -/
structure TraceCodec where
  traceData : List (String × List (Nat × List FrameRec))
  fps : ℚ
  targetRate : ℚ
  fixedMode : Bool
  currentResIdx : Nat
  fixedResIdx : Nat
  currentFrameIdx : Nat
  matchedRate : Nat
  current : FrameRec
deriving DecidableEq

/-- Resolutions for which the codec has at least one video trace
(`m_resolutions`), in load order. -/
def resolutionsOf (c : TraceCodec) : List String :=
  c.traceData.map (fun p => p.1)

/-- Loaded bitrates (kbps) for a given resolution label. -/
def bitratesFor (c : TraceCodec) (res : String) : List Nat :=
  match c.traceData.find? (fun p => p.1 = res) with
  | some p => p.2.map (fun q => q.1)
  | none => []

/-- Label of the codec's current resolution (`m_currentResIt`). -/
def currentResLabel (c : TraceCodec) : String :=
  (resolutionsOf c).getD c.currentResIdx ""

/-- Frame sequence of the trace for a given resolution and bitrate. -/
def sequenceFor (c : TraceCodec) (res : String) (rate : Nat) : List FrameRec :=
  match c.traceData.find? (fun p => p.1 = res) with
  | some p =>
    match p.2.find? (fun q => q.1 = rate) with
    | some q => q.2
    | none => []
  | none => []

/-- Frame sequence the codec currently outputs from: the trace of the
current resolution at the currently matched bitrate. -/
def selectedSequence (c : TraceCodec) : List FrameRec :=
  sequenceFor c (currentResLabel c) c.matchedRate

/-- Modelled from the spec: re-run the bitrate lookup of
`TraceBasedCodec::matchBitrate` on the current resolution and target
rate and store the result in `m_matchedRate` (kept unchanged when no
bitrate is loaded for the current resolution). -/
def rematch (c : TraceCodec) : TraceCodec :=
  { c with matchedRate :=
      (matchBitrate (bitratesFor c (currentResLabel c)) c.targetRate).getD c.matchedRate }

/-- Modelled from the spec: `TraceBasedCodec`'s `setTargetRate` (body in
the missing implementation file) stores the new target rate and re-runs
the bitrate lookup; the frame cursor is not touched. -/
def traceSetTargetRate (c : TraceCodec) (newRateBps : ℚ) : TraceCodec :=
  rematch { c with targetRate := newRateBps }

/-- Modelled from the spec: cursor step of
`TraceBasedCodec::nextPacketOrFrame` — increment the cursor; on reaching
the end of the selected sequence wrap to index `N_FRAMES_EXCLUDED`
rather than 0. -/
def stepCursor (seqLen idx : Nat) : Nat :=
  if seqLen ≤ idx + 1 then nFramesExcluded else idx + 1

/-- Modelled from the spec: frame-selection part of
`TraceBasedCodec::nextPacketOrFrame` — advance the cursor and output the
frame size the selected trace reports there, with the fps-determined
inter-arrival time. -/
def selectFrame (c : TraceCodec) : TraceCodec :=
  let i := stepCursor (selectedSequence c).length c.currentFrameIdx
  { c with currentFrameIdx := i,
           current := ⟨((selectedSequence c).getD i ⟨0, 0⟩).size, 1 / c.fps⟩ }

/-- Low bits-per-pixel threshold (`m_lowBppThresh`, default 0.7). -/
def lowBppThresh : ℚ := 7 / 10

/-- High bits-per-pixel threshold (`m_highBppThresh`, default 1.5). -/
def highBppThresh : ℚ := 3 / 2

/-- Modelled from the spec: `TraceBasedCodec::increaseResolution` steps
`m_currentResIt` to the next larger resolution having loaded traces, if
one exists. -/
def increaseResolution (c : TraceCodec) : TraceCodec :=
  if c.currentResIdx + 1 < (resolutionsOf c).length then
    { c with currentResIdx := c.currentResIdx + 1 }
  else c

/-- Modelled from the spec: `TraceBasedCodec::decreaseResolution` steps
`m_currentResIt` to the next smaller resolution having loaded traces, if
one exists. -/
def decreaseResolution (c : TraceCodec) : TraceCodec :=
  if 0 < c.currentResIdx then { c with currentResIdx := c.currentResIdx - 1 } else c

/-- Modelled from the spec: `TraceBasedCodec::getCurrentBpp` (body in the
missing implementation file).  For resolutions at most 480p the bits per
pixel of the matched bitrate over the true pixel count; above 480p
Waggoner's power-of-0.75 rule applied to the bits per pixel at 480p,
where the 480p bits per pixel uses the bitrate hypothetically matched at
480p for the current target rate.  The power function x ↦ x^0.75 is
irrational on the pixel ratios, so it is taken as a parameter `pow34` of
the model; every theorem below holds for an arbitrary `pow34`. -/
def getCurrentBpp (pow34 : ℚ → ℚ) (c : TraceCodec) : ℚ :=
  if getPixelsPerFrame (currentResLabel c) ≤ pixels480 then
    bitrateBps c.matchedRate / (c.fps * getPixelsPerFrame (currentResLabel c))
  else
    bitrateBps ((matchBitrate (bitratesFor c "480p") c.targetRate).getD c.matchedRate) /
      (c.fps * pixels480) * pow34 (getPixelsPerFrame (currentResLabel c) / pixels480)

/-- Modelled from the spec: `TraceBasedCodec::adjustResolution` (body in
the missing implementation file).  Only in variable mode: compare the
current bits per pixel against the two thresholds and step the current
resolution at most one position up or down. -/
def adjustResolution (pow34 : ℚ → ℚ) (c : TraceCodec) : TraceCodec :=
  if c.fixedMode then c
  else if getCurrentBpp pow34 c < lowBppThresh then increaseResolution c
  else if highBppThresh < getCurrentBpp pow34 c then decreaseResolution c
  else c

/-- Modelled from the spec: `TraceBasedCodec::nextPacketOrFrame` (body in
the missing implementation file) — advance the cursor and select the
frame, then run the resolution adaptation, then re-run the bitrate
lookup for the possibly changed resolution. -/
def traceAdvance (pow34 : ℚ → ℚ) (c : TraceCodec) : TraceCodec :=
  rematch (adjustResolution pow34 (selectFrame c))

/-- Iterated `traceAdvance`. -/
def traceAdvanceRun (pow34 : ℚ → ℚ) : Nat → TraceCodec → TraceCodec
  | 0, c => c
  | k + 1, c => traceAdvanceRun pow34 k (traceAdvance pow34 c)

/-- Modelled from the spec: `TraceBasedCodec::setFixedMode`.  Turning
fixed mode on re-selects the configured fixed resolution (and re-runs
the bitrate lookup there); turning it off leaves the current resolution
unchanged. -/
def setFixedMode (c : TraceCodec) (fixed : Bool) : TraceCodec :=
  if fixed then rematch { c with fixedMode := true, currentResIdx := c.fixedResIdx }
  else { c with fixedMode := false }

/-- Modelled from the spec: `TraceBasedCodec::setResolutionForFixedMode`.
Fails (returns false, no effect) if no trace data exists for the label;
otherwise records the label as the fixed-mode resolution. -/
def setResolutionForFixedMode (c : TraceCodec) (res : String) : Bool × TraceCodec :=
  match (resolutionsOf c).findIdx? (fun l => l = res) with
  | some i => (true, { c with fixedResIdx := i })
  | none => (false, c)

theorem rematch_currentFrameIdx (c : TraceCodec) :
    (rematch c).currentFrameIdx = c.currentFrameIdx := rfl

theorem increaseResolution_currentFrameIdx (c : TraceCodec) :
    (increaseResolution c).currentFrameIdx = c.currentFrameIdx := by
  unfold increaseResolution
  split <;> rfl

theorem decreaseResolution_currentFrameIdx (c : TraceCodec) :
    (decreaseResolution c).currentFrameIdx = c.currentFrameIdx := by
  unfold decreaseResolution
  split <;> rfl

theorem adjustResolution_currentFrameIdx (pow34 : ℚ → ℚ) (c : TraceCodec) :
    (adjustResolution pow34 c).currentFrameIdx = c.currentFrameIdx := by
  unfold adjustResolution
  split
  · rfl
  split
  · exact increaseResolution_currentFrameIdx c
  split
  · exact decreaseResolution_currentFrameIdx c
  · rfl

theorem traceAdvance_currentFrameIdx (pow34 : ℚ → ℚ) (c : TraceCodec) :
    (traceAdvance pow34 c).currentFrameIdx =
      stepCursor (selectedSequence c).length c.currentFrameIdx := by
  unfold traceAdvance
  rw [rematch_currentFrameIdx, adjustResolution_currentFrameIdx]
  rfl

theorem stepCursor_ge (seqLen idx : Nat) (h : nFramesExcluded ≤ idx) :
    nFramesExcluded ≤ stepCursor seqLen idx := by
  unfold stepCursor
  split <;> omega

/-- C7: on advance the frame cursor increments by one, and when it
reaches the end of the selected trace sequence it wraps to index
`N_FRAMES_EXCLUDED` (20), never to 0; consequently once the cursor is at
or beyond index 20 — in particular right after any wrap — it never
returns to the excluded range [0, 19]. -/
theorem traceBasedCodec_cursor_wrap_spec (pow34 : ℚ → ℚ) (c : TraceCodec) :
    nFramesExcluded = 20 ∧
    (c.currentFrameIdx + 1 < (selectedSequence c).length →
      (traceAdvance pow34 c).currentFrameIdx = c.currentFrameIdx + 1) ∧
    ((selectedSequence c).length ≤ c.currentFrameIdx + 1 →
      (traceAdvance pow34 c).currentFrameIdx = nFramesExcluded) ∧
    (∀ k, nFramesExcluded ≤ c.currentFrameIdx →
      nFramesExcluded ≤ (traceAdvanceRun pow34 k c).currentFrameIdx) := by
  refine ⟨rfl, ?_, ?_, ?_⟩
  · intro h
    rw [traceAdvance_currentFrameIdx]
    unfold stepCursor
    split <;> omega
  · intro h
    rw [traceAdvance_currentFrameIdx]
    unfold stepCursor
    split
    · rfl
    · omega
  · intro k
    induction k generalizing c with
    | zero => exact fun h => h
    | succ n ih =>
      intro h
      show nFramesExcluded ≤ (traceAdvanceRun pow34 n (traceAdvance pow34 c)).currentFrameIdx
      apply ih
      rw [traceAdvance_currentFrameIdx]
      exact stepCursor_ge _ _ h

/-- Concrete codec used to witness C7: a single 360p trace at 300 kbps
with 26 frames, cursor at frame 25 (the last one). -/
def cursorDemo : TraceCodec :=
  { traceData := [("360p", [(300, List.replicate 26 ⟨100, 1/25⟩)])],
    fps := 25,
    targetRate := 350000,
    fixedMode := false,
    currentResIdx := 0,
    fixedResIdx := 0,
    currentFrameIdx := 25,
    matchedRate := 300,
    current := ⟨100, 1/25⟩ }

/-- Witness for C7: advancing `cursorDemo` past the last of its 26
frames wraps the cursor to 20, and three further advances keep it at or
beyond 20. -/
theorem traceBasedCodec_cursor_wrap_spec_witness :
    ((selectedSequence cursorDemo).length ≤ cursorDemo.currentFrameIdx + 1) ∧
    (traceAdvance (fun x => x) cursorDemo).currentFrameIdx = nFramesExcluded ∧
    nFramesExcluded ≤ (traceAdvanceRun (fun x => x) 3 cursorDemo).currentFrameIdx :=
  ⟨by with_unfolding_all decide,
   (traceBasedCodec_cursor_wrap_spec (fun x => x) cursorDemo).2.2.1
     (by with_unfolding_all decide),
   (traceBasedCodec_cursor_wrap_spec (fun x => x) cursorDemo).2.2.2 3 (by decide)⟩

theorem pairwise_lt_adjacent (f : String → ℚ) (l : List String)
    (hs : l.Pairwise (fun a b => f a < f b)) (i : Nat) (hi : i + 1 < l.length) :
    f (l.getD i "") < f (l.getD (i + 1) "") ∧
    ∀ r ∈ l, ¬ (f (l.getD i "") < f r ∧ f r < f (l.getD (i + 1) "")) := by
  have hp := List.pairwise_iff_get.mp hs
  have hgi : l.getD i "" = l.get ⟨i, by omega⟩ := by
    rw [List.getD_eq_getElem _ _ (by omega)]
    simp [List.get_eq_getElem]
  have hgj : l.getD (i + 1) "" = l.get ⟨i + 1, hi⟩ := by
    rw [List.getD_eq_getElem _ _ hi]
    simp [List.get_eq_getElem]
  rw [hgi, hgj]
  refine ⟨hp ⟨i, by omega⟩ ⟨i + 1, hi⟩ (by simp [Fin.lt_def]), ?_⟩
  rintro r hr ⟨h1, h2⟩
  obtain ⟨j, hj⟩ := List.mem_iff_get.mp hr
  subst hj
  rcases Nat.lt_trichotomy j.1 i with hlt | heq | hgt
  · exact absurd (hp j ⟨i, by omega⟩ (by exact (by omega : j.1 < i)))
      (by intro hc; exact absurd h1 (by exact not_lt_of_gt hc))
  · have : j = (⟨i, by omega⟩ : Fin l.length) := Fin.ext (show j.1 = i from heq)
    rw [this] at h1
    exact absurd h1 (lt_irrefl _)
  · rcases Nat.lt_or_ge j.1 (i + 2) with hj2 | hj2
    · have : j = (⟨i + 1, hi⟩ : Fin l.length) := Fin.ext (show j.1 = i + 1 by omega)
      rw [this] at h2
      exact absurd h2 (lt_irrefl _)
    · have := hp ⟨i + 1, hi⟩ j (by exact (by omega : i + 1 < j.1))
      exact absurd h2 (by intro hc; exact absurd this (not_lt_of_gt hc))

/-- C3: in variable mode every advance runs the resolution adaptation
after selecting the frame.  The bits-per-pixel value is computed from
the true pixel count for resolutions at most 480p, and via Waggoner's
rule from the bitrate matched at 480p for the current target rate
otherwise; if it is below the low threshold (0.7) the current resolution
steps to the next larger resolution with loaded traces (when one
exists), if it is above the high threshold (1.5) it steps to the next
smaller one, and at most one step occurs per advance. -/
theorem traceBasedCodec_adjustResolution_spec (pow34 : ℚ → ℚ) (c : TraceCodec)
    (hvar : c.fixedMode = false) :
    traceAdvance pow34 c = rematch (adjustResolution pow34 (selectFrame c)) ∧
    getCurrentBpp pow34 (selectFrame c) = getCurrentBpp pow34 c ∧
    (getPixelsPerFrame (currentResLabel c) ≤ pixels480 →
      getCurrentBpp pow34 c =
        bitrateBps c.matchedRate / (c.fps * getPixelsPerFrame (currentResLabel c))) ∧
    (pixels480 < getPixelsPerFrame (currentResLabel c) →
      getCurrentBpp pow34 c =
        bitrateBps ((matchBitrate (bitratesFor c "480p") c.targetRate).getD c.matchedRate) /
          (c.fps * pixels480) * pow34 (getPixelsPerFrame (currentResLabel c) / pixels480)) ∧
    (getCurrentBpp pow34 c < lowBppThresh →
      adjustResolution pow34 c = increaseResolution c ∧
      (c.currentResIdx + 1 < (resolutionsOf c).length →
        (adjustResolution pow34 c).currentResIdx = c.currentResIdx + 1) ∧
      ((resolutionsOf c).length ≤ c.currentResIdx + 1 →
        (adjustResolution pow34 c).currentResIdx = c.currentResIdx)) ∧
    (highBppThresh < getCurrentBpp pow34 c →
      adjustResolution pow34 c = decreaseResolution c ∧
      (0 < c.currentResIdx →
        (adjustResolution pow34 c).currentResIdx = c.currentResIdx - 1) ∧
      (c.currentResIdx = 0 →
        (adjustResolution pow34 c).currentResIdx = c.currentResIdx)) ∧
    (lowBppThresh ≤ getCurrentBpp pow34 c → getCurrentBpp pow34 c ≤ highBppThresh →
      (adjustResolution pow34 c).currentResIdx = c.currentResIdx) ∧
    ((adjustResolution pow34 c).currentResIdx ≤ c.currentResIdx + 1 ∧
      c.currentResIdx ≤ (adjustResolution pow34 c).currentResIdx + 1) ∧
    ((resolutionsOf c).Pairwise (fun a b => getPixelsPerFrame a < getPixelsPerFrame b) →
      (c.currentResIdx + 1 < (resolutionsOf c).length →
        getPixelsPerFrame (currentResLabel c) <
          getPixelsPerFrame ((resolutionsOf c).getD (c.currentResIdx + 1) "") ∧
        ∀ r ∈ resolutionsOf c,
          ¬ (getPixelsPerFrame (currentResLabel c) < getPixelsPerFrame r ∧
            getPixelsPerFrame r <
              getPixelsPerFrame ((resolutionsOf c).getD (c.currentResIdx + 1) ""))) ∧
      (0 < c.currentResIdx → c.currentResIdx < (resolutionsOf c).length →
        getPixelsPerFrame ((resolutionsOf c).getD (c.currentResIdx - 1) "") <
          getPixelsPerFrame (currentResLabel c) ∧
        ∀ r ∈ resolutionsOf c,
          ¬ (getPixelsPerFrame ((resolutionsOf c).getD (c.currentResIdx - 1) "") <
            getPixelsPerFrame r ∧
            getPixelsPerFrame r < getPixelsPerFrame (currentResLabel c)))) := by
  have hadj : adjustResolution pow34 c =
      if getCurrentBpp pow34 c < lowBppThresh then increaseResolution c
      else if highBppThresh < getCurrentBpp pow34 c then decreaseResolution c
      else c := by
    unfold adjustResolution
    rw [hvar]
    simp
  refine ⟨rfl, rfl, ?_, ?_, ?_, ?_, ?_, ?_, ?_⟩
  · intro h
    unfold getCurrentBpp
    rw [if_pos ?_]
    exact h
  · intro h
    unfold getCurrentBpp
    rw [if_neg (not_le_of_gt h)]
  · intro h
    rw [hadj, if_pos h]
    refine ⟨rfl, ?_, ?_⟩ <;> intro h2 <;> unfold increaseResolution
    · rw [if_pos h2]
    · rw [if_neg (by omega)]
  · intro h
    have hnot : ¬ getCurrentBpp pow34 c < lowBppThresh := by
      intro hc
      have : lowBppThresh < highBppThresh := by norm_num [lowBppThresh, highBppThresh]
      exact absurd (lt_trans (lt_trans this h) hc) (lt_irrefl _)
    rw [hadj, if_neg hnot, if_pos h]
    refine ⟨rfl, ?_, ?_⟩ <;> intro h2 <;> unfold decreaseResolution
    · rw [if_pos h2]
    · rw [if_neg (by omega)]
  · intro h1 h2
    rw [hadj, if_neg (not_lt_of_ge h1), if_neg (not_lt_of_ge h2)]
  · rw [hadj]
    split
    · unfold increaseResolution
      split
      · exact ⟨Nat.le_refl _, Nat.le_succ_of_le (Nat.le_succ _)⟩
      · exact ⟨Nat.le_succ _, Nat.le_succ _⟩
    split
    · unfold decreaseResolution
      split
      · constructor
        · show c.currentResIdx - 1 ≤ c.currentResIdx + 1
          omega
        · show c.currentResIdx ≤ c.currentResIdx - 1 + 1
          omega
      · exact ⟨Nat.le_succ _, Nat.le_succ _⟩
    · exact ⟨Nat.le_succ _, Nat.le_succ _⟩
  · intro hs
    constructor
    · intro hlen
      exact pairwise_lt_adjacent getPixelsPerFrame (resolutionsOf c) hs
        c.currentResIdx hlen
    · intro hpos hlen
      have := pairwise_lt_adjacent getPixelsPerFrame (resolutionsOf c) hs
        (c.currentResIdx - 1) (by omega)
      have hidx : c.currentResIdx - 1 + 1 = c.currentResIdx := by omega
      rw [hidx] at this
      exact this

/-- Concrete codec used to witness C3: variable mode on 360p with 480p
data also loaded; the matched 400 kbps at 360p gives a bits-per-pixel
value far below 0.7, so the resolution steps up to 480p. -/
def adaptDemo : TraceCodec :=
  { traceData := [("360p", [(400, List.replicate 30 ⟨2000, 1/25⟩)]),
                  ("480p", [(500, List.replicate 30 ⟨2500, 1/25⟩)])],
    fps := 25,
    targetRate := 450000,
    fixedMode := false,
    currentResIdx := 0,
    fixedResIdx := 0,
    currentFrameIdx := 22,
    matchedRate := 400,
    current := ⟨2000, 1/25⟩ }

/-- Witness for C3: on `adaptDemo` (variable mode, 360p, bpp below 0.7,
480p loaded and strictly larger) the adaptation steps the current
resolution up by exactly one position — to 480p. -/
theorem traceBasedCodec_adjustResolution_spec_witness :
    adaptDemo.fixedMode = false ∧
    getCurrentBpp (fun x => x) adaptDemo < lowBppThresh ∧
    adaptDemo.currentResIdx + 1 < (resolutionsOf adaptDemo).length ∧
    (adjustResolution (fun x => x) adaptDemo).currentResIdx =
      adaptDemo.currentResIdx + 1 ∧
    (resolutionsOf adaptDemo).getD (adaptDemo.currentResIdx + 1) "" = "480p" :=
  have hbpp : getCurrentBpp (fun x => x) adaptDemo < lowBppThresh := by
    with_unfolding_all decide
  have hlen : adaptDemo.currentResIdx + 1 < (resolutionsOf adaptDemo).length := by
    decide
  ⟨rfl, hbpp, hlen,
   (((traceBasedCodec_adjustResolution_spec (fun x => x) adaptDemo
      rfl).2.2.2.2.1 hbpp).2.1 hlen),
   by decide⟩

/-- C8: `setTargetRate` — and the resolution-mode mutators — leave the
frame cursor unchanged, even when they cause a different trace sequence
to be selected: the codec re-points into the new sequence at the same
index. -/
theorem traceBasedCodec_setTargetRate_cursor_unchanged
    (c : TraceCodec) (r : ℚ) (fixed : Bool) (res : String) :
    (traceSetTargetRate c r).currentFrameIdx = c.currentFrameIdx ∧
    (setFixedMode c fixed).currentFrameIdx = c.currentFrameIdx ∧
    (setResolutionForFixedMode c res).2.currentFrameIdx = c.currentFrameIdx := by
  refine ⟨rfl, ?_, ?_⟩
  · unfold setFixedMode
    split <;> rfl
  · unfold setResolutionForFixedMode
    split <;> rfl

/-- Number of packets an inner frame of `S` bytes is fragmented into by
a packetizer with maximum payload `M`: the ceiling of `S / M`. -/
def nPackets (M S : Nat) : Nat := (S + M - 1) / M

/-- Fragment sizes of a frame of `S` bytes under maximum payload `M`:
repeatedly emit `min remainingBytes M` until nothing remains. -/
def fragSizes (M S : Nat) : List Nat :=
  if h : M = 0 ∨ S = 0 then []
  else min S M :: fragSizes M (S - min S M)
termination_by S
decreasing_by
  push_neg at h
  omega

theorem nPackets_pos {M S : Nat} (hM : 0 < M) (hS : 0 < S) : 0 < nPackets M S := by
  unfold nPackets
  exact (Nat.one_le_div_iff hM).mpr (by omega)

theorem nPackets_sub {M S : Nat} (hM : 0 < M) (hS : 0 < S) :
    nPackets M (S - min S M) = nPackets M S - 1 := by
  unfold nPackets
  rcases le_or_lt S M with h | h
  · have hmin : min S M = S := by omega
    rw [hmin]
    have h2 : (S + M - 1) / M = 1 := Nat.div_eq_of_lt_le (by omega) (by omega)
    have h3 : (S - S + M - 1) / M = 0 := Nat.div_eq_of_lt (by omega)
    omega
  · have hmin : min S M = M := by omega
    rw [hmin]
    have e1 : S - M + M - 1 = S - 1 := by omega
    have e2 : S + M - 1 = S - 1 + M := by omega
    rw [e1, e2, Nat.add_div_right _ hM]
    simp

theorem fragSizes_zero_left (S : Nat) : fragSizes 0 S = [] := by
  unfold fragSizes
  simp

theorem fragSizes_zero_right (M : Nat) : fragSizes M 0 = [] := by
  unfold fragSizes
  simp

theorem fragSizes_pos {M S : Nat} (hM : 0 < M) (hS : 0 < S) :
    fragSizes M S = min S M :: fragSizes M (S - min S M) := by
  rw [fragSizes]
  rw [dif_neg (by omega)]

theorem fragSizes_sum {M : Nat} (hM : 0 < M) :
    ∀ S, (fragSizes M S).sum = S := by
  intro S
  induction S using Nat.strong_induction_on with
  | _ S ih =>
    rcases Nat.eq_zero_or_pos S with h0 | hS
    · rw [h0, fragSizes_zero_right]
      rfl
    · rw [fragSizes_pos hM hS]
      have := ih (S - min S M) (by omega)
      simp [this]
      try omega

theorem fragSizes_length {M : Nat} (hM : 0 < M) :
    ∀ S, (fragSizes M S).length = nPackets M S := by
  intro S
  induction S using Nat.strong_induction_on with
  | _ S ih =>
    rcases Nat.eq_zero_or_pos S with h0 | hS
    · rw [h0, fragSizes_zero_right]
      unfold nPackets
      rw [Nat.zero_add]
      exact (Nat.div_eq_of_lt (by omega)).symm
    · rw [fragSizes_pos hM hS]
      have h1 := ih (S - min S M) (by omega)
      have h2 := nPackets_sub hM hS
      have h3 := nPackets_pos hM hS
      simp [h1, h2]
      omega

theorem fragSizes_le {M : Nat} :
    ∀ S, ∀ x ∈ fragSizes M S, x ≤ M := by
  intro S
  induction S using Nat.strong_induction_on with
  | _ S ih =>
    intro x hx
    rcases Nat.eq_zero_or_pos M with hM | hM
    · rw [hM, fragSizes_zero_left] at hx
      simp at hx
    rcases Nat.eq_zero_or_pos S with h0 | hS
    · rw [h0, fragSizes_zero_right] at hx
      simp at hx
    · rw [fragSizes_pos hM hS] at hx
      rcases List.mem_cons.mp hx with hx | hx
      · omega
      · exact ih (S - min S M) (by omega) x hx

/-- State of a `ShapedPacketizer`: how many frames it has extracted from
the inner codec, the bytes of the current inner frame not yet emitted
(`m_bytesToSend`), the per-fragment wait time of the current inner
frame, the wrapper's own target rate, and the current output packet. -/
structure ShapedState where
  innerIdx : Nat
  bytesToSend : Nat
  pktInterval : ℚ
  targetRate : ℚ
  current : FrameRec
deriving DecidableEq

/-- Modelled from the spec: `ShapedPacketizer::nextPacketOrFrame` (body
in the missing implementation file).  If unsent bytes remain from the
current inner frame, emit the next fragment of size
`min remainingBytes maxPayloadSize` with the stored per-fragment wait
time; otherwise advance the inner codec, fragment the new frame and emit
its first fragment, the wait time being the inner frame's inter-arrival
time divided by the number of fragments.  The inner codec is modelled as
a stream of frames indexed by how often it has been advanced. -/
def shapedStep (inner : Nat → FrameRec) (M : Nat) (s : ShapedState) : ShapedState :=
  if s.bytesToSend = 0 then
    { s with innerIdx := s.innerIdx + 1,
             bytesToSend := (inner s.innerIdx).size - min (inner s.innerIdx).size M,
             pktInterval := (inner s.innerIdx).secsToNext / (nPackets M (inner s.innerIdx).size : ℚ),
             current := ⟨min (inner s.innerIdx).size M,
               (inner s.innerIdx).secsToNext / (nPackets M (inner s.innerIdx).size : ℚ)⟩ }
  else
    { s with bytesToSend := s.bytesToSend - min s.bytesToSend M,
             current := ⟨min s.bytesToSend M, s.pktInterval⟩ }

/-- Modelled from the spec: `ShapedPacketizer::setTargetRate` stores the
wrapper's target rate and throttles the inner codec's target rate to
compensate for the per-packet overhead; the fragmentation state and the
current packet are untouched.  The inner codec's behaviour is a
parameter of every step, which subsumes its rate changing. -/
def shapedSetTargetRate (s : ShapedState) (r : ℚ) : ShapedState :=
  { s with targetRate := r }

/-- Iterated `shapedStep`. -/
def shapedRun (inner : Nat → FrameRec) (M : Nat) : Nat → ShapedState → ShapedState
  | 0, s => s
  | k + 1, s => shapedRun inner M k (shapedStep inner M s)

/-- Packets emitted by the first `k` steps of the wrapper. -/
def shapedOutputs (inner : Nat → FrameRec) (M : Nat) : Nat → ShapedState → List FrameRec
  | 0, _ => []
  | k + 1, s =>
    (shapedStep inner M s).current :: shapedOutputs inner M k (shapedStep inner M s)

theorem shapedRun_succ_last (inner : Nat → FrameRec) (M : Nat) :
    ∀ k s, shapedRun inner M (k + 1) s = shapedStep inner M (shapedRun inner M k s) := by
  intro k
  induction k with
  | zero => intro s; rfl
  | succ j ih =>
    intro s
    show shapedRun inner M (j + 1) (shapedStep inner M s) = _
    rw [ih]
    rfl

theorem shapedStep_innerIdx_of_empty {inner : Nat → FrameRec} {M : Nat}
    {t : ShapedState} (h : t.bytesToSend = 0) :
    (shapedStep inner M t).innerIdx = t.innerIdx + 1 := by
  unfold shapedStep
  rw [if_pos h]

theorem shapedStep_mid (inner : Nat → FrameRec) (M : Nat) (s : ShapedState)
    (h : s.bytesToSend ≠ 0) :
    shapedStep inner M s =
      { s with bytesToSend := s.bytesToSend - min s.bytesToSend M,
               current := ⟨min s.bytesToSend M, s.pktInterval⟩ } := by
  unfold shapedStep
  rw [if_neg h]

theorem shapedMidFrame (inner : Nat → FrameRec) (M : Nat) (hM : 0 < M) :
    ∀ B, 0 < B → ∀ s : ShapedState, s.bytesToSend = B →
      (shapedOutputs inner M (nPackets M B) s).map (fun f => f.size) = fragSizes M B ∧
      (shapedOutputs inner M (nPackets M B) s).map (fun f => f.secsToNext) =
        List.replicate (nPackets M B) s.pktInterval ∧
      (∀ k, k ≤ nPackets M B → (shapedRun inner M k s).innerIdx = s.innerIdx) ∧
      (shapedRun inner M (nPackets M B) s).bytesToSend = 0 := by
  intro B
  induction B using Nat.strong_induction_on with
  | _ B ih =>
    intro hB s hs
    have hstep : shapedStep inner M s =
        { s with bytesToSend := B - min B M, current := ⟨min B M, s.pktInterval⟩ } := by
      rw [shapedStep_mid inner M s (by omega), hs]
    rcases Nat.eq_zero_or_pos (B - min B M) with hrem | hrem
    · have hn1 : nPackets M B = 1 := by
        have h0 : nPackets M (B - min B M) = 0 := by
          rw [hrem]
          unfold nPackets
          exact Nat.div_eq_of_lt (by omega)
        have := nPackets_sub hM hB
        have := nPackets_pos hM hB
        omega
      rw [hn1]
      refine ⟨?_, ?_, ?_, ?_⟩
      · show ((shapedStep inner M s).current ::
            (shapedOutputs inner M 0 (shapedStep inner M s))).map (fun f => f.size) = _
        rw [hstep, fragSizes_pos hM hB, hrem, fragSizes_zero_right]
        simp [shapedOutputs]
      · show ((shapedStep inner M s).current ::
            (shapedOutputs inner M 0 (shapedStep inner M s))).map (fun f => f.secsToNext) = _
        rw [hstep]
        simp [shapedOutputs, List.replicate]
      · intro k hk
        interval_cases k
        · rfl
        · show (shapedStep inner M s).innerIdx = s.innerIdx
          rw [hstep]
      · show (shapedStep inner M s).bytesToSend = 0
        rw [hstep]
        exact hrem
    · have hneq : nPackets M B = nPackets M (B - min B M) + 1 := by
        have := nPackets_sub hM hB
        have := nPackets_pos hM hB
        omega
      have hs' : (shapedStep inner M s).bytesToSend = B - min B M := by rw [hstep]
      obtain ⟨iha, ihb, ihc, ihd⟩ := ih (B - min B M) (by omega) hrem _ hs'
      have hw : (shapedStep inner M s).pktInterval = s.pktInterval := by rw [hstep]
      have hi : (shapedStep inner M s).innerIdx = s.innerIdx := by rw [hstep]
      rw [hneq]
      refine ⟨?_, ?_, ?_, ?_⟩
      · show ((shapedStep inner M s).current ::
            (shapedOutputs inner M (nPackets M (B - min B M)) (shapedStep inner M s))).map
            (fun f => f.size) = _
        rw [fragSizes_pos hM hB]
        simp only [List.map_cons, iha]
        rw [hstep]
      · show ((shapedStep inner M s).current ::
            (shapedOutputs inner M (nPackets M (B - min B M)) (shapedStep inner M s))).map
            (fun f => f.secsToNext) = _
        rw [List.replicate_succ]
        simp only [List.map_cons, ihb, hw]
        rw [hstep]
      · intro k hk
        cases k with
        | zero => rfl
        | succ j =>
          show (shapedRun inner M j (shapedStep inner M s)).innerIdx = s.innerIdx
          rw [ihc j (by omega), hi]
      · show (shapedRun inner M (nPackets M (B - min B M)) (shapedStep inner M s)).bytesToSend = 0
        exact ihd

/-- C2: over any inner generator, an inner frame of `S` bytes with
inter-arrival `T` and maximum payload `M` is emitted as exactly
`ceil(S/M)` packets of sizes `min remainingBytes M` summing exactly to
`S`, each with wait time `T / ceil(S/M)` summing exactly to `T`; the
inner generator is advanced once when fragmentation starts and not again
until after the last fragment. -/
theorem shapedPacketizer_fragmentation_spec
    (inner : Nat → FrameRec) (M S : Nat) (T : ℚ) (s : ShapedState)
    (hM : 0 < M) (hS : 0 < S) (hs : s.bytesToSend = 0)
    (hframe : inner s.innerIdx = ⟨S, T⟩) :
    (shapedOutputs inner M (nPackets M S) s).map (fun f => f.size) = fragSizes M S ∧
    ((shapedOutputs inner M (nPackets M S) s).map (fun f => f.size)).sum = S ∧
    (∀ f ∈ shapedOutputs inner M (nPackets M S) s, f.size ≤ M) ∧
    (shapedOutputs inner M (nPackets M S) s).map (fun f => f.secsToNext) =
      List.replicate (nPackets M S) (T / (nPackets M S : ℚ)) ∧
    ((shapedOutputs inner M (nPackets M S) s).map (fun f => f.secsToNext)).sum = T ∧
    (∀ k, 1 ≤ k → k ≤ nPackets M S →
      (shapedRun inner M k s).innerIdx = s.innerIdx + 1) ∧
    (shapedRun inner M (nPackets M S) s).bytesToSend = 0 ∧
    (shapedRun inner M (nPackets M S + 1) s).innerIdx = s.innerIdx + 2 := by
  have hstep : shapedStep inner M s =
      { s with innerIdx := s.innerIdx + 1,
               bytesToSend := S - min S M,
               pktInterval := T / (nPackets M S : ℚ),
               current := ⟨min S M, T / (nPackets M S : ℚ)⟩ } := by
    unfold shapedStep
    rw [if_pos hs, hframe]
  have key : (shapedOutputs inner M (nPackets M S) s).map (fun f => f.size) =
        fragSizes M S ∧
      (shapedOutputs inner M (nPackets M S) s).map (fun f => f.secsToNext) =
        List.replicate (nPackets M S) (T / (nPackets M S : ℚ)) ∧
      (∀ k, 1 ≤ k → k ≤ nPackets M S →
        (shapedRun inner M k s).innerIdx = s.innerIdx + 1) ∧
      (shapedRun inner M (nPackets M S) s).bytesToSend = 0 := by
    rcases Nat.eq_zero_or_pos (S - min S M) with hrem | hrem
    · have hn1 : nPackets M S = 1 := by
        have h0 : nPackets M (S - min S M) = 0 := by
          rw [hrem]
          unfold nPackets
          exact Nat.div_eq_of_lt (by omega)
        have := nPackets_sub hM hS
        have := nPackets_pos hM hS
        omega
      rw [hn1]
      refine ⟨?_, ?_, ?_, ?_⟩
      · show ((shapedStep inner M s).current ::
            (shapedOutputs inner M 0 (shapedStep inner M s))).map (fun f => f.size) = _
        rw [hstep, fragSizes_pos hM hS, hrem, fragSizes_zero_right, hn1]
        simp [shapedOutputs]
      · show ((shapedStep inner M s).current ::
            (shapedOutputs inner M 0 (shapedStep inner M s))).map (fun f => f.secsToNext) = _
        rw [hstep, hn1]
        simp [shapedOutputs, List.replicate]
      · intro k hk1 hk2
        interval_cases k
        show (shapedStep inner M s).innerIdx = s.innerIdx + 1
        rw [hstep]
      · show (shapedStep inner M s).bytesToSend = 0
        rw [hstep]
        exact hrem
    · have hneq : nPackets M S = nPackets M (S - min S M) + 1 := by
        have := nPackets_sub hM hS
        have := nPackets_pos hM hS
        omega
      have hs' : (shapedStep inner M s).bytesToSend = S - min S M := by rw [hstep]
      obtain ⟨iha, ihb, ihc, ihd⟩ :=
        shapedMidFrame inner M hM (S - min S M) hrem (shapedStep inner M s) hs'
      have hw : (shapedStep inner M s).pktInterval = T / (nPackets M S : ℚ) := by rw [hstep]
      have hi : (shapedStep inner M s).innerIdx = s.innerIdx + 1 := by rw [hstep]
      rw [hneq]
      refine ⟨?_, ?_, ?_, ?_⟩
      · show ((shapedStep inner M s).current ::
            (shapedOutputs inner M (nPackets M (S - min S M)) (shapedStep inner M s))).map
            (fun f => f.size) = _
        rw [fragSizes_pos hM hS]
        simp only [List.map_cons, iha]
        rw [hstep]
      · show ((shapedStep inner M s).current ::
            (shapedOutputs inner M (nPackets M (S - min S M)) (shapedStep inner M s))).map
            (fun f => f.secsToNext) = _
        rw [List.replicate_succ]
        simp only [List.map_cons, ihb, hw, ← hneq]
        rw [hstep]
      · intro k hk1 hk2
        cases k with
        | zero => omega
        | succ j =>
          show (shapedRun inner M j (shapedStep inner M s)).innerIdx = s.innerIdx + 1
          rw [ihc j (by omega), hi]
      · show (shapedRun inner M (nPackets M (S - min S M))
            (shapedStep inner M s)).bytesToSend = 0
        exact ihd
  obtain ⟨ka, kb, kc, kd⟩ := key
  have hn := nPackets_pos hM hS
  refine ⟨ka, ?_, ?_, kb, ?_, kc, kd, ?_⟩
  · rw [ka]
    exact fragSizes_sum hM S
  · intro f hf
    have hmem : f.size ∈ fragSizes M S := by
      rw [← ka]
      exact List.mem_map_of_mem _ hf
    exact fragSizes_le S f.size hmem
  · rw [kb, List.sum_replicate]
    have hnz : ((nPackets M S : Nat) : ℚ) ≠ 0 := Nat.cast_ne_zero.mpr (by omega)
    rw [nsmul_eq_mul, mul_comm]
    exact div_mul_cancel₀ T hnz
  · rw [shapedRun_succ_last, shapedStep_innerIdx_of_empty kd,
      kc (nPackets M S) (by omega) (le_refl _)]

/-- Inner generator of the end-to-end shaping scenario: every frame is
3500 bytes with a 40 ms inter-arrival time. -/
def shapingDemoInner : Nat → FrameRec := fun _ => ⟨3500, 1/25⟩

/-- Start state of the end-to-end shaping scenario: no unsent bytes
remain, so the next step pulls a fresh inner frame. -/
def shapingDemoStart : ShapedState := ⟨0, 0, 0, 0, ⟨0, 0⟩⟩

/-- Witness for C2, the end-to-end scenario of the spec: a 3500-byte
inner frame at 40 ms with maximum payload 1000 is emitted as 4 packets
of sizes 1000, 1000, 1000, 500, each waiting 10 ms. -/
theorem shapedPacketizer_fragmentation_spec_witness :
    (0 : Nat) < 1000 ∧ (0 : Nat) < 3500 ∧
    shapingDemoStart.bytesToSend = 0 ∧
    shapingDemoInner shapingDemoStart.innerIdx = ⟨3500, 1/25⟩ ∧
    nPackets 1000 3500 = 4 ∧
    (shapedOutputs shapingDemoInner 1000 4 shapingDemoStart).map (fun f => f.size) =
      [1000, 1000, 1000, 500] ∧
    (shapedOutputs shapingDemoInner 1000 4 shapingDemoStart).map (fun f => f.secsToNext) =
      [1/100, 1/100, 1/100, 1/100] ∧
    (((shapedOutputs shapingDemoInner 1000
        (nPackets 1000 3500) shapingDemoStart).map (fun f => f.size)).sum = 3500 ∧
      ((shapedOutputs shapingDemoInner 1000
        (nPackets 1000 3500) shapingDemoStart).map (fun f => f.secsToNext)).sum = 1/25 ∧
      (shapedRun shapingDemoInner 1000 (nPackets 1000 3500) shapingDemoStart).bytesToSend = 0) :=
  ⟨by decide, by decide, rfl, rfl, by decide,
   by with_unfolding_all decide, by with_unfolding_all decide,
   (shapedPacketizer_fragmentation_spec shapingDemoInner 1000 3500 (1/25)
      shapingDemoStart (by decide) (by decide) rfl rfl).2.1,
   (shapedPacketizer_fragmentation_spec shapingDemoInner 1000 3500 (1/25)
      shapingDemoStart (by decide) (by decide) rfl rfl).2.2.2.2.1,
   (shapedPacketizer_fragmentation_spec shapingDemoInner 1000 3500 (1/25)
      shapingDemoStart (by decide) (by decide) rfl rfl).2.2.2.2.2.2.1⟩

/-- State of a `PerfectCodec`: the configured maximum payload size, the
target rate and the current output record. -/
structure PerfectState where
  payloadSize : Nat
  targetRate : ℚ
  current : FrameRec
deriving DecidableEq

/-- Modelled from the spec: `PerfectCodec::nextPacketOrFrame` (body in
the missing implementation file) — packets of constant size equal to the
configured maximum payload, each waiting `size * 8 / targetRate`
seconds. -/
def perfectAdvance (s : PerfectState) : PerfectState :=
  { s with current := ⟨s.payloadSize, (s.payloadSize : ℚ) * 8 / s.targetRate⟩ }

/-- Modelled from the spec: `Codec::setTargetRate` for the perfect codec
stores the new rate; the next advance reflects it. -/
def perfectSetTargetRate (s : PerfectState) (r : ℚ) : PerfectState :=
  { s with targetRate := r }

/-- States of the perfect codec reachable by advances and rate changes. -/
inductive PerfectReach (start : PerfectState) : PerfectState → Prop
  | refl : PerfectReach start start
  | advance {t : PerfectState} : PerfectReach start t → PerfectReach start (perfectAdvance t)
  | setRate {t : PerfectState} (r : ℚ) :
      PerfectReach start t → PerfectReach start (perfectSetTargetRate t r)

/-- States of the shaping wrapper reachable by advances and rate
changes; the inner codec's behaviour may differ at every step, which
covers every possible inner generator including rate-adapted ones. -/
inductive ShapedReach (M : Nat) (start : ShapedState) : ShapedState → Prop
  | refl : ShapedReach M start start
  | advance (inner : Nat → FrameRec) {t : ShapedState} :
      ShapedReach M start t → ShapedReach M start (shapedStep inner M t)
  | setRate {t : ShapedState} (r : ℚ) :
      ShapedReach M start t → ShapedReach M start (shapedSetTargetRate t r)

theorem shapedStep_size_le (inner : Nat → FrameRec) (M : Nat) (t : ShapedState) :
    (shapedStep inner M t).current.size ≤ M := by
  unfold shapedStep
  split
  · exact Nat.min_le_right _ _
  · exact Nat.min_le_right _ _

/-- C9: in every state of a packetizer (`PerfectCodec` or
`ShapedPacketizer`) reachable by any sequence of advances and
target-rate changes from its post-construction state, the current
record's payload length is at most the configured maximum payload size. -/
theorem packetizer_payload_bound :
    (∀ (s0 s : PerfectState), PerfectReach (perfectAdvance s0) s →
      s.current.size ≤ s.payloadSize ∧ s.payloadSize = s0.payloadSize) ∧
    (∀ (M : Nat) (inner0 : Nat → FrameRec) (s0 s : ShapedState),
      ShapedReach M (shapedStep inner0 M s0) s → s.current.size ≤ M) := by
  constructor
  · intro s0 s h
    induction h with
    | refl => exact ⟨le_refl _, rfl⟩
    | advance h ih => exact ⟨le_refl _, ih.2⟩
    | setRate r h ih => exact ih
  · intro M inner0 s0 s h
    induction h with
    | refl => exact shapedStep_size_le inner0 M s0
    | advance inner h ih => exact shapedStep_size_le inner M _
    | setRate r h ih => exact ih

/-- Witness for C9: a perfect codec with payload 1200 after one advance
and one rate change, and a shaping wrapper with payload 1000 after two
steps, both respect the payload bound. -/
theorem packetizer_payload_bound_witness :
    ((perfectSetTargetRate (perfectAdvance ⟨1200, 1000000, ⟨0, 0⟩⟩) 2000000).current.size ≤
      (perfectSetTargetRate (perfectAdvance ⟨1200, 1000000, ⟨0, 0⟩⟩) 2000000).payloadSize) ∧
    (shapedStep shapingDemoInner 1000
      (shapedStep shapingDemoInner 1000 shapingDemoStart)).current.size ≤ 1000 :=
  ⟨(packetizer_payload_bound.1 ⟨1200, 1000000, ⟨0, 0⟩⟩ _
      (PerfectReach.setRate 2000000 PerfectReach.refl)).1,
   packetizer_payload_bound.2 1000 shapingDemoInner shapingDemoStart _
      (ShapedReach.advance shapingDemoInner ShapedReach.refl)⟩

theorem bitrateBps_le_iff {a b : Nat} : bitrateBps a ≤ bitrateBps b ↔ a ≤ b := by
  unfold bitrateBps
  constructor
  · intro h
    have := (mul_le_mul_right (by norm_num : (0:ℚ) < 1000)).mp h
    exact_mod_cast this
  · intro h
    exact mul_le_mul_of_nonneg_right (Nat.cast_le.mpr h) (by norm_num)

/-- Modelled from the spec: the low side of
`TraceBasedCodecWithScaling::matchBitrate` (body in the missing
implementation file) — the loaded bitrate immediately below the target
rate, falling back to the smallest loaded bitrate when the target is
below all of them. -/
def lowRateOf (bitrates : List Nat) (t : ℚ) : Option Nat :=
  match listMax (bitrates.filter (fun b => bitrateBps b ≤ t)) with
  | some m => some m
  | none => listMin bitrates

/-- Modelled from the spec: the high side of
`TraceBasedCodecWithScaling::matchBitrate` — the loaded bitrate
immediately above the target rate, falling back to the largest loaded
bitrate when the target is above all of them. -/
def highRateOf (bitrates : List Nat) (t : ℚ) : Option Nat :=
  match listMin (bitrates.filter (fun b => t ≤ bitrateBps b)) with
  | some m => some m
  | none => listMax bitrates

/-- Modelled from the spec: the frame-size computation of
`TraceBasedCodecWithScaling::nextPacketOrFrame` (body in the missing
implementation file).  `sizeAt b` is the frame size at the current
cursor in the trace of bitrate `b` for the current resolution.  Below
the minimum loaded bitrate the low sequence is scaled by
`target/lowRate`; above the maximum the high sequence is scaled by
`target/highRate`; otherwise the two sequences are linearly
interpolated between `lowRate` and `highRate`. -/
def interpFrameSize (bitrates : List Nat) (sizeAt : Nat → ℚ) (t : ℚ) : ℚ :=
  match listMin bitrates, listMax bitrates with
  | some mn, some mx =>
    if t < bitrateBps mn then sizeAt mn * (t / bitrateBps mn)
    else if bitrateBps mx < t then sizeAt mx * (t / bitrateBps mx)
    else
      match lowRateOf bitrates t, highRateOf bitrates t with
      | some low, some high =>
        sizeAt low + (t - bitrateBps low) * (sizeAt high - sizeAt low) /
          (bitrateBps high - bitrateBps low)
      | _, _ => 0
  | _, _ => 0

theorem lowRateOf_eq {brs : List Nat} {t : ℚ} {low : Nat}
    (hmem : low ∈ brs) (hle : bitrateBps low ≤ t)
    (hmax : ∀ b ∈ brs, bitrateBps b ≤ t → b ≤ low) :
    lowRateOf brs t = some low := by
  unfold lowRateOf
  have hlowf : low ∈ brs.filter (fun b => decide (bitrateBps b ≤ t)) := by
    simp [List.mem_filter, hmem, hle]
  obtain ⟨m, hm⟩ := listMax_isSome (List.ne_nil_of_mem hlowf)
  rw [hm]
  have hmmem := listMax_mem hm
  have hm_in : m ∈ brs := (List.mem_filter.mp hmmem).1
  have hm_le : bitrateBps m ≤ t := by simpa using (List.mem_filter.mp hmmem).2
  have h1 : m ≤ low := hmax m hm_in hm_le
  have h2 : low ≤ m := listMax_ge hm low hlowf
  simp
  omega

theorem highRateOf_eq {brs : List Nat} {t : ℚ} {high : Nat}
    (hmem : high ∈ brs) (hge : t ≤ bitrateBps high)
    (hmin : ∀ b ∈ brs, t ≤ bitrateBps b → high ≤ b) :
    highRateOf brs t = some high := by
  unfold highRateOf
  have hhif : high ∈ brs.filter (fun b => decide (t ≤ bitrateBps b)) := by
    simp [List.mem_filter, hmem, hge]
  obtain ⟨m, hm⟩ := listMin_isSome (List.ne_nil_of_mem hhif)
  rw [hm]
  have hmmem := listMin_mem hm
  have hm_in : m ∈ brs := (List.mem_filter.mp hmmem).1
  have hm_ge : t ≤ bitrateBps m := by simpa using (List.mem_filter.mp hmmem).2
  have h1 : high ≤ m := hmin m hm_in hm_ge
  have h2 : m ≤ high := listMin_le hm high hhif
  simp
  omega

theorem interpFrameSize_eq {brs : List Nat} {sizeAt : Nat → ℚ} {t : ℚ} {mn mx : Nat}
    (hmn : listMin brs = some mn) (hmx : listMax brs = some mx) :
    interpFrameSize brs sizeAt t =
      if t < bitrateBps mn then sizeAt mn * (t / bitrateBps mn)
      else if bitrateBps mx < t then sizeAt mx * (t / bitrateBps mx)
      else
        match lowRateOf brs t, highRateOf brs t with
        | some low, some high =>
          sizeAt low + (t - bitrateBps low) * (sizeAt high - sizeAt low) /
            (bitrateBps high - bitrateBps low)
        | _, _ => 0 := by
  unfold interpFrameSize
  rw [hmn, hmx]

/-- C4: the output frame size of `TraceBasedCodecWithScaling` at the
cursor is the linear interpolation between the low and high sequences
when `lowRate ≤ target ≤ highRate`, the low sequence scaled by
`target/lowRate` when the target is below the minimum loaded bitrate,
and the high sequence scaled by `target/highRate` when above the
maximum; consequently at `target = lowRate` it equals the low sequence's
raw frame size and at `target = highRate` the high sequence's. -/
theorem interpolatingTraceGenerator_frameSize_spec
    (brs : List Nat) (sizeAt : Nat → ℚ) (t : ℚ) (hne : brs ≠ []) :
    (∀ mn, listMin brs = some mn → t < bitrateBps mn →
      interpFrameSize brs sizeAt t = sizeAt mn * (t / bitrateBps mn)) ∧
    (∀ mx, listMax brs = some mx → bitrateBps mx < t →
      interpFrameSize brs sizeAt t = sizeAt mx * (t / bitrateBps mx)) ∧
    (∀ low high, low ∈ brs → bitrateBps low ≤ t →
      (∀ b ∈ brs, bitrateBps b ≤ t → b ≤ low) →
      high ∈ brs → t ≤ bitrateBps high →
      (∀ b ∈ brs, t ≤ bitrateBps b → high ≤ b) →
      interpFrameSize brs sizeAt t =
        sizeAt low + (t - bitrateBps low) * (sizeAt high - sizeAt low) /
          (bitrateBps high - bitrateBps low)) ∧
    (∀ b ∈ brs, t = bitrateBps b → interpFrameSize brs sizeAt t = sizeAt b) := by
  obtain ⟨mn, hmn⟩ := listMin_isSome hne
  obtain ⟨mx, hmx⟩ := listMax_isSome hne
  have hmid : ∀ low high, low ∈ brs → bitrateBps low ≤ t →
      (∀ b ∈ brs, bitrateBps b ≤ t → b ≤ low) →
      high ∈ brs → t ≤ bitrateBps high →
      (∀ b ∈ brs, t ≤ bitrateBps b → high ≤ b) →
      interpFrameSize brs sizeAt t =
        sizeAt low + (t - bitrateBps low) * (sizeAt high - sizeAt low) /
          (bitrateBps high - bitrateBps low) := by
    intro low high hlmem hlle hlmax hhmem hhge hhmin
    have hnb : ¬ t < bitrateBps mn := by
      have h1 : mn ≤ low := listMin_le hmn low hlmem
      have := bitrateBps_le_iff.mpr h1
      exact not_lt_of_ge (le_trans this hlle)
    have hna : ¬ bitrateBps mx < t := by
      have h1 : high ≤ mx := listMax_ge hmx high hhmem
      have := bitrateBps_le_iff.mpr h1
      exact not_lt_of_ge (le_trans hhge this)
    rw [interpFrameSize_eq hmn hmx, if_neg hnb, if_neg hna,
      lowRateOf_eq hlmem hlle hlmax, highRateOf_eq hhmem hhge hhmin]
  refine ⟨?_, ?_, hmid, ?_⟩
  · intro mn' h1 h2
    rw [hmn] at h1
    injection h1 with h1
    subst h1
    rw [interpFrameSize_eq hmn hmx, if_pos h2]
  · intro mx' h1 h2
    rw [hmx] at h1
    injection h1 with h1
    subst h1
    have hnb : ¬ t < bitrateBps mn := by
      have h1 : mn ≤ mx := listMin_le hmn mx (listMax_mem hmx)
      have := bitrateBps_le_iff.mpr h1
      exact not_lt_of_ge (le_of_lt (lt_of_le_of_lt this h2))
    rw [interpFrameSize_eq hmn hmx, if_neg hnb, if_pos h2]
  · intro b hb ht
    have h := hmid b b hb (le_of_eq ht.symm)
      (fun c hc hcle => bitrateBps_le_iff.mp (le_trans hcle (le_of_eq ht)))
      hb (le_of_eq ht)
      (fun c hc hcge => bitrateBps_le_iff.mp (le_trans (le_of_eq ht.symm) hcge))
    rw [h, ht]
    rw [sub_self, zero_mul, zero_div, add_zero]

/-- Frame sizes at the current cursor used in the C4 witness: 50 for
the 100 kbps trace and 90 for the 300 kbps trace. -/
def interpDemoSizes : Nat → ℚ := fun b => if b = 100 then 50 else 90

/-- Witness for C4: with traces at 100 and 300 kbps whose cursor sizes
are 50 and 90, a 200000 bps target interpolates to 70, and a target of
exactly 100000 bps (= lowRate) yields the low sequence's raw size 50. -/
theorem interpolatingTraceGenerator_frameSize_spec_witness :
    ([100, 300] : List Nat) ≠ [] ∧
    (100 : Nat) ∈ ([100, 300] : List Nat) ∧
    interpFrameSize [100, 300] interpDemoSizes (bitrateBps 100) = interpDemoSizes 100 ∧
    interpFrameSize [100, 300] interpDemoSizes 200000 = 70 :=
  ⟨by decide, by decide,
   (interpolatingTraceGenerator_frameSize_spec [100, 300] interpDemoSizes
      (bitrateBps 100) (by decide)).2.2.2 100 (by decide) rfl,
   by with_unfolding_all decide⟩

/-- Configuration of a `StatisticsCodec` (constructor parameters). -/
structure StatCfg where
  fps : ℚ
  maxUpdateRatio : ℚ
  updateInterval : ℚ
  bigChangeRatio : ℚ
  transientLength : Nat
  iFrameRatio : ℚ
deriving DecidableEq

/-- Default constructor arguments of `StatisticsCodec`: maxUpdateRatio
0.1, updateInterval 0.1 s, bigChangeRatio 0.5, transientLength 10
frames, iFrameRatio 4. -/
def defaultStatCfg (fps : ℚ) : StatCfg := ⟨fps, 1/10, 1/10, 1/2, 10, 4⟩

/-- State of a `StatisticsCodec`: target rate, the simulated time left
until the next rate update is accepted (`m_timeToUpdate`), the frames
left in the current transient phase (`m_remainingBurstFrames`) and the
current record (real-valued frame size in bytes, seconds to next). -/
structure StatState where
  targetRate : ℚ
  timeToUpdate : ℚ
  remainingBurstFrames : Nat
  current : ℚ × ℚ
deriving DecidableEq

/-- Modelled from the spec: clamp a requested rate so that the ratio of
change relative to the old rate does not exceed `maxUpdateRatio`. -/
def clampRate (old r m : ℚ) : ℚ := min (old * (1 + m)) (max (old * (1 - m)) r)

/-- Modelled from the spec: `StatisticsCodec::setTargetRate` (body in
the missing implementation file).  Reject (no-op, return the current
rate) while the update cooldown has not elapsed; on a big change
(`|old/new - 1|` above `bigChangeRatio`) adopt the requested rate
exactly, bypass the clamp and enter the transient phase with the
countdown reset; otherwise, with a non-zero `maxUpdateRatio`, adopt the
clamped rate.  Every accepted update restarts the cooldown. -/
def statSetTargetRate (cfg : StatCfg) (s : StatState) (r : ℚ) : ℚ × StatState :=
  if 0 < s.timeToUpdate then (s.targetRate, s)
  else if cfg.bigChangeRatio < |s.targetRate / r - 1| then
    (r, { s with targetRate := r,
                 remainingBurstFrames := cfg.transientLength,
                 timeToUpdate := cfg.updateInterval })
  else if cfg.maxUpdateRatio ≠ 0 then
    (clampRate s.targetRate r cfg.maxUpdateRatio,
     { s with targetRate := clampRate s.targetRate r cfg.maxUpdateRatio,
              timeToUpdate := cfg.updateInterval })
  else
    (r, { s with targetRate := r, timeToUpdate := cfg.updateInterval })

/-- Modelled from the spec: `StatisticsCodec::nextPacketOrFrame` (body
in the missing implementation file).  Steady frames have size
`targetRate/(fps*8)`; a transient phase of `transientLength` frames
opens with an I-frame of `iFrameRatio` times the steady size and
continues with compensating frames never smaller than 0.2 times the
steady size; the pluggable noise callback modifies every emitted size.
Each advance emits one frame every `1/fps` seconds, consuming that much
simulated time from the update cooldown and one frame from the burst
countdown. -/
def statAdvance (cfg : StatCfg) (noise : ℚ → ℚ) (s : StatState) : StatState :=
  let steady := s.targetRate / (cfg.fps * 8)
  let size :=
    if s.remainingBurstFrames = 0 then steady
    else if s.remainingBurstFrames = cfg.transientLength then cfg.iFrameRatio * steady
    else
      max (steady / 5)
        (steady * ((cfg.transientLength : ℚ) - cfg.iFrameRatio) /
          ((cfg.transientLength : ℚ) - 1))
  { s with current := (noise size, 1 / cfg.fps),
           timeToUpdate := s.timeToUpdate - 1 / cfg.fps,
           remainingBurstFrames := s.remainingBurstFrames - 1 }

/-- Iterated `statAdvance`. -/
def statRun (cfg : StatCfg) (noise : ℚ → ℚ) : Nat → StatState → StatState
  | 0, s => s
  | k + 1, s => statRun cfg noise k (statAdvance cfg noise s)

/-- C5: outside the cooldown window, a big change (`|old/new - 1|` above
`bigChangeRatio`) adopts the requested rate exactly, bypasses the clamp
and enters the transient phase with the countdown reset to
`transientLength`; a non-big change with non-zero `maxUpdateRatio` adopts
and returns the clamped rate, whose ratio of change from the old rate
does not exceed `maxUpdateRatio`. -/
theorem statisticsCodec_setTargetRate_spec (cfg : StatCfg) (s : StatState) (r : ℚ)
    (hcool : s.timeToUpdate ≤ 0) :
    (cfg.bigChangeRatio < |s.targetRate / r - 1| →
      statSetTargetRate cfg s r =
        (r, { s with targetRate := r,
                     remainingBurstFrames := cfg.transientLength,
                     timeToUpdate := cfg.updateInterval })) ∧
    (¬ cfg.bigChangeRatio < |s.targetRate / r - 1| → cfg.maxUpdateRatio ≠ 0 →
      statSetTargetRate cfg s r =
        (clampRate s.targetRate r cfg.maxUpdateRatio,
         { s with targetRate := clampRate s.targetRate r cfg.maxUpdateRatio,
                  timeToUpdate := cfg.updateInterval }) ∧
      (0 < s.targetRate → 0 ≤ cfg.maxUpdateRatio →
        |clampRate s.targetRate r cfg.maxUpdateRatio / s.targetRate - 1| ≤
          cfg.maxUpdateRatio)) := by
  have hnc : ¬ 0 < s.timeToUpdate := not_lt_of_ge hcool
  constructor
  · intro hbig
    unfold statSetTargetRate
    rw [if_neg hnc, if_pos hbig]
  · intro hnbig hmr
    constructor
    · unfold statSetTargetRate
      rw [if_neg hnc, if_neg hnbig, if_pos hmr]
    · intro hold hm
      have h1 : clampRate s.targetRate r cfg.maxUpdateRatio ≤
          s.targetRate * (1 + cfg.maxUpdateRatio) := min_le_left _ _
      have h2 : s.targetRate * (1 - cfg.maxUpdateRatio) ≤
          clampRate s.targetRate r cfg.maxUpdateRatio := by
        apply le_min
        · nlinarith
        · exact le_max_left _ _
      rw [abs_le]
      constructor
      · rw [le_sub_iff_add_le, le_div_iff₀ hold]
        nlinarith
      · rw [sub_le_iff_le_add, div_le_iff₀ hold]
        nlinarith

/-- State used to witness C5 and C6: target rate 1 Mbps. -/
def statDemo : StatState := ⟨1000000, 0, 0, (0, 0)⟩

/-- Witness for C5: at the default configuration with no cooldown
pending, requesting 3 Mbps from 1 Mbps is a big change (|1/3 - 1| = 2/3
above 0.5): the rate is adopted exactly and the transient countdown is
reset to 10. -/
theorem statisticsCodec_setTargetRate_spec_witness :
    statDemo.timeToUpdate ≤ 0 ∧
    (defaultStatCfg 25).bigChangeRatio < |statDemo.targetRate / 3000000 - 1| ∧
    statSetTargetRate (defaultStatCfg 25) statDemo 3000000 =
      (3000000, { statDemo with targetRate := 3000000,
                                remainingBurstFrames := 10,
                                timeToUpdate := 1/10 }) :=
  ⟨by with_unfolding_all decide, by with_unfolding_all decide,
   (statisticsCodec_setTargetRate_spec (defaultStatCfg 25) statDemo 3000000
      (by with_unfolding_all decide)).1 (by with_unfolding_all decide)⟩

/-- C6: a `setTargetRate` call made while the cooldown is pending — in
particular, after any number of advances whose inter-arrival times
(1/fps each) sum to less than `updateInterval` since the last successful
update — is a no-op: it returns the current target rate and leaves the
state unchanged. -/
theorem statisticsCodec_cooldown_noop (cfg : StatCfg) (noise : ℚ → ℚ)
    (s : StatState) (r : ℚ) (k : Nat) :
    (0 < s.timeToUpdate → statSetTargetRate cfg s r = (s.targetRate, s)) ∧
    (statAdvance cfg noise s).current.2 = 1 / cfg.fps ∧
    (statRun cfg noise k s).timeToUpdate = s.timeToUpdate - k * (1 / cfg.fps) ∧
    (s.timeToUpdate = cfg.updateInterval → (k : ℚ) * (1 / cfg.fps) < cfg.updateInterval →
      statSetTargetRate cfg (statRun cfg noise k s) r =
        ((statRun cfg noise k s).targetRate, statRun cfg noise k s)) := by
  have hrun : ∀ (j : Nat) (u : StatState),
      (statRun cfg noise j u).timeToUpdate = u.timeToUpdate - j * (1 / cfg.fps) := by
    intro j
    induction j with
    | zero =>
      intro u
      show u.timeToUpdate = u.timeToUpdate - (0 : Nat) * (1 / cfg.fps)
      push_cast
      ring
    | succ i ih =>
      intro u
      show (statRun cfg noise i (statAdvance cfg noise u)).timeToUpdate = _
      rw [ih]
      have hstep : (statAdvance cfg noise u).timeToUpdate =
          u.timeToUpdate - 1 / cfg.fps := rfl
      rw [hstep]
      push_cast
      ring
  have hnoop : ∀ u : StatState, 0 < u.timeToUpdate →
      statSetTargetRate cfg u r = (u.targetRate, u) := by
    intro u hu
    unfold statSetTargetRate
    rw [if_pos hu]
  refine ⟨hnoop s, rfl, hrun k s, ?_⟩
  intro hupd hk
  apply hnoop
  rw [hrun k s, hupd]
  linarith

/-- Witness for C6: at fps 25 and the default 0.1 s update interval,
two advances consume 0.08 s of simulated time, so the following
`setTargetRate` request for 2 Mbps is refused: the prior 1 Mbps is
returned and the state is unchanged. -/
theorem statisticsCodec_cooldown_noop_witness :
    ({ statDemo with timeToUpdate := 1/10 } : StatState).timeToUpdate =
      (defaultStatCfg 25).updateInterval ∧
    ((2 : Nat) : ℚ) * (1 / (defaultStatCfg 25).fps) < (defaultStatCfg 25).updateInterval ∧
    statSetTargetRate (defaultStatCfg 25)
        (statRun (defaultStatCfg 25) (fun x => x) 2 { statDemo with timeToUpdate := 1/10 })
        2000000 =
      ((statRun (defaultStatCfg 25) (fun x => x) 2
          { statDemo with timeToUpdate := 1/10 }).targetRate,
        statRun (defaultStatCfg 25) (fun x => x) 2
          { statDemo with timeToUpdate := 1/10 }) :=
  ⟨rfl, by with_unfolding_all decide,
   (statisticsCodec_cooldown_noop (defaultStatCfg 25) (fun x => x)
      { statDemo with timeToUpdate := 1/10 } 2000000 2).2.2.2 rfl
      (by with_unfolding_all decide)⟩

end Syncodecs
